import Mathlib

/-!
Verification of the Timetracker core engine against its specification.

The development shallowly embeds the three core algorithms of the
repository:

* the write-time overlap resolver of `Database.save_activity`
  (src/core/database.py),
* the timeline merger `TimelineWidget._merge_activities`
  (src/gui/timeline.py),
* the learning / confidence-scoring logic of `SmartProjectAssigner`
  (src/utils/smart_project_assigner.py).

Timestamps and durations are modelled as integers (whole seconds), which
matches the source: `duration = int((end_time - start_time).total_seconds())`
and the SQL comparisons on ISO-formatted second-precision timestamps are
order-isomorphic to integer comparisons.
-/

namespace Timetracker

/-! ## Database rows and the overlap resolver (src/core/database.py) -/

/-- A stored row of the `activities` table, with the columns written by
`save_activity`.  `id` is the SQLite AUTOINCREMENT primary key. -/
structure Row where
  id : Nat
  timestamp : Int
  app_name : String
  window_title : String
  duration : Int
  is_idle : Bool
  process_path : Option String
deriving Repr, DecidableEq

/-- The database state: the stored rows (in rowid order) together with the
next AUTOINCREMENT id to be handed out. -/
structure DB where
  rows : List Row
  next_id : Nat
deriving Repr, DecidableEq

/-- A fresh database: no rows, AUTOINCREMENT starts at 1. -/
def emptyDB : DB := ⟨[], 1⟩

/-- The overlap-scan predicate of `save_activity`:

    SELECT id, timestamp, duration FROM activities
    WHERE timestamp < ?  AND datetime(timestamp, '+' || duration || ' seconds') > ?

with parameters `(end_time, start_time)`.  For a non-negative stored
`duration` the `datetime` expression equals `timestamp + duration`; for a
negative stored duration the modifier string is malformed (`'+-5 seconds'`),
`datetime` yields NULL and the comparison is not satisfied, so such rows are
never selected — hence the `0 ≤ r.duration` conjunct. -/
def selOverlap (startT endT : Int) (r : Row) : Bool :=
  decide (r.timestamp < endT) && decide (0 ≤ r.duration) &&
    decide (startT < r.timestamp + r.duration)

/-- The per-row action of the resolution loop in `save_activity`: a selected
row is truncated to `new_duration = start - timestamp` when that is positive
and deleted otherwise; an unselected row is untouched. -/
def resolveRow (startT : Int) (sel : Row → Bool) (r : Row) : Option Row :=
  if sel r then
    let nd := startT - r.timestamp
    if 0 < nd then some { r with duration := nd } else none
  else some r

/-- Equality on the four columns of the unique index
`idx_unique_activity(timestamp, app_name, window_title, duration)`. -/
def matches4 (ts : Int) (app title : String) (dur : Int) (r : Row) : Bool :=
  r.timestamp == ts && r.app_name == app && r.window_title == title &&
    r.duration == dur

/-- Model of `Database.save_activity(app_name, window_title, start_time, end_time,
is_idle, process_path)`.  It computes `duration = end - start`, truncates or
deletes every stored row selected by the overlap scan, then inserts the new
activity; if the insert collides with the unique index (an exact duplicate
of a surviving row on the four indexed columns) the `sqlite3.IntegrityError`
is caught and `0` is returned — the truncations/deletions performed before
the failed insert remain in effect on the connection, exactly as in the
source (the exception handler does not roll them back). -/
def save_activity (db : DB) (app title : String) (startT endT : Int)
    (idle : Bool) (pp : Option String) : Nat × DB :=
  let dur := endT - startT
  let resolved := db.rows.filterMap (resolveRow startT (selOverlap startT endT))
  if resolved.any (matches4 startT app title dur) then
    (0, { db with rows := resolved })
  else
    (db.next_id,
      ⟨resolved ++ [⟨db.next_id, startT, app, title, dur, idle, pp⟩],
        db.next_id + 1⟩)

/-- The argument tuple of one `save_activity` call. -/
structure SaveArgs where
  app : String
  title : String
  startT : Int
  endT : Int
  idle : Bool
  pp : Option String
deriving Repr, DecidableEq

/-- Run a sequence of `save_activity` calls against a database. -/
def runCalls : List SaveArgs → DB → DB
  | [], db => db
  | c :: cs, db =>
      runCalls cs (save_activity db c.app c.title c.startT c.endT c.idle c.pp).2

/-- Disjointness of the half-open interval `[t1, t1+d1)` from `[t2, t2+d2)`:
`min (t1+d1) (t2+d2) ≤ max t1 t2` is exactly `Disjoint (Set.Ico t1 (t1+d1))
(Set.Ico t2 (t2+d2))` (see `ivlDisj_iff_disjoint_Ico`); an interval with
non-positive duration is empty and disjoint from everything. -/
def ivlDisj (t1 d1 t2 d2 : Int) : Prop :=
  min (t1 + d1) (t2 + d2) ≤ max t1 t2

instance : ∀ t1 d1 t2 d2, Decidable (ivlDisj t1 d1 t2 d2) := by
  intro t1 d1 t2 d2
  unfold ivlDisj
  infer_instance

theorem ivlDisj_iff_disjoint_Ico (t1 d1 t2 d2 : Int) :
    ivlDisj t1 d1 t2 d2 ↔
      Disjoint (Set.Ico t1 (t1 + d1)) (Set.Ico t2 (t2 + d2)) := by
  rw [Set.Ico_disjoint_Ico]
  exact Iff.rfl

/-- The no-overlap invariant of the stored activity set. -/
def NoOverlap (db : DB) : Prop :=
  db.rows.Pairwise (fun r s => ivlDisj r.timestamp r.duration s.timestamp s.duration)

theorem ivlDisj_symm {t1 d1 t2 d2 : Int} (h : ivlDisj t1 d1 t2 d2) :
    ivlDisj t2 d2 t1 d1 := by
  unfold ivlDisj at h ⊢
  omega

/-- Surviving the resolution loop never moves a row, never lengthens it, and
keeps its identity columns. -/
theorem resolveRow_shrinks {startT endT : Int} {r r' : Row}
    (h : resolveRow startT (selOverlap startT endT) r = some r') :
    r'.timestamp = r.timestamp ∧ r'.duration ≤ r.duration ∧ r'.id = r.id
      ∧ r'.app_name = r.app_name ∧ r'.window_title = r.window_title := by
  unfold resolveRow at h
  by_cases hs : selOverlap startT endT r = true
  · have hsel := hs
    unfold selOverlap at hsel
    simp only [Bool.and_eq_true, decide_eq_true_eq] at hsel
    simp only [hs, if_true] at h
    by_cases hd : (0 : Int) < startT - r.timestamp
    · simp only [hd, if_true, Option.some.injEq] at h
      subst h
      exact ⟨rfl, by simp; omega, rfl, rfl, rfl⟩
    · simp [hd] at h
  · simp only [hs, Bool.false_eq_true, if_false, Option.some.injEq] at h
    subst h
    exact ⟨rfl, le_refl _, rfl, rfl, rfl⟩

/-- A row that survives the resolution loop is disjoint from the incoming
interval `[start, end)`: unselected rows fail the overlap scan, truncated
rows now end exactly at `start`. -/
theorem resolveRow_disjoint_new {startT endT : Int} {r r' : Row}
    (h : resolveRow startT (selOverlap startT endT) r = some r') :
    ivlDisj r'.timestamp r'.duration startT (endT - startT) := by
  unfold resolveRow at h
  by_cases hs : selOverlap startT endT r = true
  · simp only [hs, if_true] at h
    by_cases hd : (0 : Int) < startT - r.timestamp
    · simp only [hd, if_true, Option.some.injEq] at h
      subst h
      unfold ivlDisj
      dsimp only
      omega
    · simp [hd] at h
  · unfold selOverlap at hs
    simp only [Bool.and_eq_true, decide_eq_true_eq, not_and] at hs
    simp only [Bool.false_eq_true] at h
    rw [if_neg] at h
    · rw [Option.some.injEq] at h
      subst h
      unfold ivlDisj
      omega
    · unfold selOverlap
      simp only [Bool.and_eq_true, decide_eq_true_eq, not_and]
      exact hs

/-- Pairwise interval-disjointness is preserved by the resolution loop. -/
theorem noOverlap_resolved {db : DB} {startT endT : Int}
    (hdb : NoOverlap db) :
    (db.rows.filterMap (resolveRow startT (selOverlap startT endT))).Pairwise
      (fun r s => ivlDisj r.timestamp r.duration s.timestamp s.duration) := by
  rw [List.pairwise_filterMap]
  refine hdb.imp ?_
  intro a b hab a' ha' b' hb'
  rw [Option.mem_def] at ha' hb'
  obtain ⟨hts, hdur, -, -, -⟩ := resolveRow_shrinks ha'
  obtain ⟨hts', hdur', -, -, -⟩ := resolveRow_shrinks hb'
  unfold ivlDisj at hab ⊢
  rw [hts, hts']
  omega

/-- Preservation: `save_activity` keeps the no-overlap invariant, for every argument
tuple and every starting state. -/
theorem save_activity_preserves_noOverlap (db : DB) (app title : String)
    (startT endT : Int) (idle : Bool) (pp : Option String)
    (hdb : NoOverlap db) :
    NoOverlap (save_activity db app title startT endT idle pp).2 := by
  unfold save_activity NoOverlap
  by_cases hdup :
      (db.rows.filterMap (resolveRow startT (selOverlap startT endT))).any
        (matches4 startT app title (endT - startT)) = true
  · simp only [hdup, if_true]
    exact noOverlap_resolved hdb
  · simp only [hdup, Bool.false_eq_true, if_false]
    rw [List.pairwise_append]
    refine ⟨noOverlap_resolved hdb, List.pairwise_singleton _ _, ?_⟩
    intro r' hr' b hb
    rw [List.mem_singleton] at hb
    subst hb
    rw [List.mem_filterMap] at hr'
    obtain ⟨r, -, hres⟩ := hr'
    exact resolveRow_disjoint_new hres

/-- The invariant is preserved along any call sequence. -/
theorem runCalls_noOverlap (calls : List SaveArgs) :
    ∀ db : DB, NoOverlap db → NoOverlap (runCalls calls db) := by
  induction calls with
  | nil => intro db h; exact h
  | cons c cs ih =>
      intro db h
      exact ih _ (save_activity_preserves_noOverlap db c.app c.title
        c.startT c.endT c.idle c.pp h)

/-- C1: after any sequence of `save_activity` calls starting from the empty
store, the stored activities have pairwise disjoint half-open intervals
`[timestamp, timestamp + duration)`; since every prefix of a call sequence
is itself a call sequence, the invariant holds as a post-condition of every
call. -/
theorem save_activity_no_overlap_invariant (calls : List SaveArgs) :
    NoOverlap (runCalls calls emptyDB) :=
  runCalls_noOverlap calls emptyDB (List.Pairwise.nil)

theorem matches4_iff {ts : Int} {app title : String} {dur : Int} {r : Row} :
    matches4 ts app title dur r = true ↔
      r.timestamp = ts ∧ r.app_name = app ∧ r.window_title = title ∧
        r.duration = dur := by
  unfold matches4
  simp [Bool.and_eq_true, beq_iff_eq, and_assoc]

theorem selOverlap_iff {s e : Int} {r : Row} :
    selOverlap s e r = true ↔
      r.timestamp < e ∧ 0 ≤ r.duration ∧ s < r.timestamp + r.duration := by
  unfold selOverlap
  simp [Bool.and_eq_true, and_assoc]

theorem resolveRow_of_not_sel {s e : Int} {r : Row}
    (h : selOverlap s e r = false) :
    resolveRow s (selOverlap s e) r = some r := by
  unfold resolveRow
  rw [h]
  simp

theorem resolveRow_of_sel_pos {s e : Int} {r : Row}
    (h : selOverlap s e r = true) (hpos : 0 < s - r.timestamp) :
    resolveRow s (selOverlap s e) r =
      some { r with duration := s - r.timestamp } := by
  unfold resolveRow
  rw [h]
  simp [hpos]

theorem resolveRow_of_sel_nonpos {s e : Int} {r : Row}
    (h : selOverlap s e r = true) (hnp : s - r.timestamp ≤ 0) :
    resolveRow s (selOverlap s e) r = none := by
  unfold resolveRow
  rw [h]
  simp
  omega

theorem length_filterMap_of_isSome {α β : Type} {f : α → Option β} :
    ∀ {l : List α}, (∀ a ∈ l, (f a).isSome) →
      (l.filterMap f).length = l.length := by
  intro l
  induction l with
  | nil => intro _; rfl
  | cons a l ih =>
      intro h
      have ha := h a (List.mem_cons_self a l)
      obtain ⟨b, hb⟩ := Option.isSome_iff_exists.mp ha
      rw [List.filterMap_cons, hb, List.length_cons]
      rw [ih (fun x hx => h x (List.mem_cons_of_mem a hx))]
      rfl

/-- C9: a stored activity that merely touches the incoming interval at an
endpoint — it ends exactly at `start_time`, or begins exactly at `end_time`
— is not selected by the overlap scan and survives `save_activity`
completely unchanged. -/
theorem save_activity_zero_length_overlap_unchanged
    (db : DB) (app title : String) (startT endT : Int) (idle : Bool)
    (pp : Option String) (r : Row) (hr : r ∈ db.rows)
    (h : r.timestamp + r.duration = startT ∨ r.timestamp = endT) :
    r ∈ (save_activity db app title startT endT idle pp).2.rows := by
  have hsel : selOverlap startT endT r = false := by
    rw [Bool.eq_false_iff, Ne, selOverlap_iff]
    rcases h with h | h <;> omega
  have hmem : r ∈ db.rows.filterMap (resolveRow startT (selOverlap startT endT)) :=
    List.mem_filterMap.mpr ⟨r, hr, resolveRow_of_not_sel hsel⟩
  unfold save_activity
  by_cases hdup :
      (db.rows.filterMap (resolveRow startT (selOverlap startT endT))).any
        (matches4 startT app title (endT - startT)) = true
  · simp only [hdup, if_true]
    exact hmem
  · simp only [hdup, Bool.false_eq_true, if_false]
    exact List.mem_append_left _ hmem

/-- C9 witness: the new activity `[10, 20)` starts exactly when the stored
row `[0, 10)` ends; the stored row survives untouched. -/
theorem save_activity_zero_length_overlap_unchanged_witness :
    (⟨1, 0, "a", "t", 10, false, none⟩ : Row) ∈
      (save_activity ⟨[⟨1, 0, "a", "t", 10, false, none⟩], 2⟩
        "b" "u" 10 20 false none).2.rows :=
  save_activity_zero_length_overlap_unchanged
    ⟨[⟨1, 0, "a", "t", 10, false, none⟩], 2⟩ "b" "u" 10 20 false none
    ⟨1, 0, "a", "t", 10, false, none⟩ (by decide) (by decide)

/-- No row surviving the resolution loop matches the four indexed columns of
the incoming activity when `start < end`: a stored exact duplicate is
selected by the overlap scan (it overlaps itself) and deleted, and a
truncated row starts strictly before `start`. -/
theorem resolved_no_match {db : DB} {startT endT : Int} {app title : String}
    (hlt : startT < endT) :
    ∀ r' ∈ db.rows.filterMap (resolveRow startT (selOverlap startT endT)),
      matches4 startT app title (endT - startT) r' = false := by
  intro r' hr'
  rw [List.mem_filterMap] at hr'
  obtain ⟨r, hr, hres⟩ := hr'
  rw [Bool.eq_false_iff, Ne, matches4_iff]
  rintro ⟨hts, happ, htit, hdur⟩
  by_cases hs : selOverlap startT endT r = true
  · by_cases hpos : 0 < startT - r.timestamp
    · rw [resolveRow_of_sel_pos hs hpos, Option.some.injEq] at hres
      subst hres
      simp at hts hdur
      omega
    · rw [resolveRow_of_sel_nonpos hs (by omega)] at hres
      exact Option.noConfusion hres
  · rw [resolveRow_of_not_sel (Bool.eq_false_iff.mpr hs),
      Option.some.injEq] at hres
    subst hres
    exact hs (selOverlap_iff.mpr ⟨by omega, by omega, by omega⟩)

/-- The duplicate-drop branch of `save_activity` fires exactly when the call
has non-positive duration and the store already holds a row equal to the new
one on the four indexed columns. -/
theorem dup_check_iff {db : DB} {startT endT : Int} {app title : String} :
    ((db.rows.filterMap (resolveRow startT (selOverlap startT endT))).any
        (matches4 startT app title (endT - startT)) = true) ↔
      (endT ≤ startT ∧
        ∃ E ∈ db.rows, matches4 startT app title (endT - startT) E = true) := by
  constructor
  · intro h
    rw [List.any_eq_true] at h
    obtain ⟨r', hr', hm⟩ := h
    by_cases hlt : startT < endT
    · exact absurd hm (by rw [resolved_no_match hlt r' hr']; exact Bool.false_ne_true)
    · refine ⟨by omega, ?_⟩
      rw [List.mem_filterMap] at hr'
      obtain ⟨r, hr, hres⟩ := hr'
      by_cases hs : selOverlap startT endT r = true
      · by_cases hpos : 0 < startT - r.timestamp
        · rw [resolveRow_of_sel_pos hs hpos, Option.some.injEq] at hres
          subst hres
          rw [matches4_iff] at hm
          simp at hm
          rw [selOverlap_iff] at hs
          omega
        · rw [resolveRow_of_sel_nonpos hs (by omega)] at hres
          exact Option.noConfusion hres
      · rw [resolveRow_of_not_sel (Bool.eq_false_iff.mpr hs),
          Option.some.injEq] at hres
        subst hres
        exact ⟨r, hr, hm⟩
  · rintro ⟨hle, E, hE, hm⟩
    rw [List.any_eq_true]
    refine ⟨E, List.mem_filterMap.mpr ⟨E, hE, ?_⟩, hm⟩
    apply resolveRow_of_not_sel
    rw [Bool.eq_false_iff, Ne, selOverlap_iff]
    rw [matches4_iff] at hm
    omega

/-- C2 counterexample: saving `("a","t",10,15)` twice is not a silent no-op.
The second call returns the fresh identifier 2 (not the sentinel 0), and the
original row (id 1) has been deleted and replaced by a new row with id 2 —
the duplicate is selected by the overlap scan (it overlaps itself), deleted,
and the insert then succeeds. -/
theorem save_activity_duplicate_cex :
    (save_activity (save_activity emptyDB "a" "t" 10 15 false none).2
        "a" "t" 10 15 false none).1 = 2 ∧
      (save_activity (save_activity emptyDB "a" "t" 10 15 false none).2
          "a" "t" 10 15 false none).2.rows =
        [⟨2, 10, "a", "t", 5, false, none⟩] := by
  decide

/-- C2 amended: when `save_activity` is called with arguments matching a
stored activity on all four uniqueness columns, the store size... — precisely:
if the duration `end - start` is non-positive, the write is dropped with
sentinel 0 and the duplicate row survives unchanged (store size unchanged);
if the duration is positive, the duplicate row is deleted by the overlap
resolver and a fresh row with the same four columns but a new identifier is
inserted, and that new identifier (not 0) is returned. -/
theorem save_activity_duplicate_amended (db : DB) (app title : String)
    (startT endT : Int) (idle : Bool) (pp : Option String) (E : Row)
    (hWF : ∀ r ∈ db.rows, r.id < db.next_id)
    (hE : E ∈ db.rows)
    (hm : matches4 startT app title (endT - startT) E = true) :
    (endT ≤ startT →
        (save_activity db app title startT endT idle pp).1 = 0 ∧
        E ∈ (save_activity db app title startT endT idle pp).2.rows ∧
        (save_activity db app title startT endT idle pp).2.rows.length =
          db.rows.length) ∧
    (startT < endT →
        (save_activity db app title startT endT idle pp).1 = db.next_id ∧
        (∀ r ∈ (save_activity db app title startT endT idle pp).2.rows, r ≠ E) ∧
        (⟨db.next_id, startT, app, title, endT - startT, idle, pp⟩ : Row) ∈
          (save_activity db app title startT endT idle pp).2.rows) := by
  rw [matches4_iff] at hm
  obtain ⟨hts, happ, htit, hdur⟩ := hm
  constructor
  · intro hle
    have hdup :
        ((db.rows.filterMap (resolveRow startT (selOverlap startT endT))).any
          (matches4 startT app title (endT - startT)) = true) :=
      dup_check_iff.mpr ⟨hle, E, hE, matches4_iff.mpr ⟨hts, happ, htit, hdur⟩⟩
    unfold save_activity
    simp only [hdup, if_true]
    refine ⟨by trivial, ?_, ?_⟩
    · refine List.mem_filterMap.mpr ⟨E, hE, resolveRow_of_not_sel ?_⟩
      rw [Bool.eq_false_iff, Ne, selOverlap_iff]
      omega
    · apply length_filterMap_of_isSome
      intro r hr
      by_cases hs : selOverlap startT endT r = true
      · have hsel := selOverlap_iff.mp hs
        rw [resolveRow_of_sel_pos hs (by omega)]
        rfl
      · rw [resolveRow_of_not_sel (Bool.eq_false_iff.mpr hs)]
        rfl
  · intro hlt
    have hdup :
        ((db.rows.filterMap (resolveRow startT (selOverlap startT endT))).any
          (matches4 startT app title (endT - startT)) = false) := by
      rw [Bool.eq_false_iff, Ne, dup_check_iff]
      rintro ⟨hle, -⟩
      omega
    unfold save_activity
    simp only [hdup, Bool.false_eq_true, if_false]
    refine ⟨by trivial, ?_, List.mem_append_right _ (List.mem_singleton_self _)⟩
    intro r hr hrE
    rcases List.mem_append.mp hr with hr | hr
    · have := @resolved_no_match db startT endT app title hlt r hr
      rw [hrE] at this
      rw [Bool.eq_false_iff, Ne, matches4_iff] at this
      exact this ⟨hts, happ, htit, hdur⟩
    · rw [List.mem_singleton] at hr
      have hid := hWF E hE
      rw [hrE] at hr
      have : E.id = db.next_id := by rw [hr]
      omega

/-- C2 amended witness: re-saving the stored activity `("a","t",[10,15))`
returns the fresh id 2 and inserts the replacement row. -/
theorem save_activity_duplicate_amended_witness :
    (save_activity ⟨[⟨1, 10, "a", "t", 5, false, none⟩], 2⟩
        "a" "t" 10 15 false none).1 = 2 ∧
      (⟨2, 10, "a", "t", 15 - 10, false, none⟩ : Row) ∈
        (save_activity ⟨[⟨1, 10, "a", "t", 5, false, none⟩], 2⟩
          "a" "t" 10 15 false none).2.rows := by
  have h := (save_activity_duplicate_amended
    ⟨[⟨1, 10, "a", "t", 5, false, none⟩], 2⟩ "a" "t" 10 15 false none
    ⟨1, 10, "a", "t", 5, false, none⟩ (by decide) (by decide) (by decide)).2
    (by decide)
  exact ⟨h.1, h.2.2⟩

/-- C3 counterexample: after storing the zero-duration activity
`("a","t",10,10)`, calling `save_activity("a","t",10,10)` again does NOT
insert the new activity: the duplicate is not selected by the overlap scan
(zero duration never satisfies `timestamp < end`), the insert hits the
unique index, and the call returns 0 leaving the store at one row — the
claim asserts the new activity is always inserted, which would give two. -/
theorem save_activity_resolution_cex :
    (save_activity (save_activity emptyDB "a" "t" 10 10 false none).2
        "a" "t" 10 10 false none).1 = 0 ∧
      (save_activity (save_activity emptyDB "a" "t" 10 10 false none).2
          "a" "t" 10 10 false none).2.rows.length = 1 := by
  decide

/-- C3 amended: for `save_activity(app, title, start, end)` a stored row is
affected iff `E.timestamp < end ∧ 0 ≤ E.duration ∧ E.timestamp + E.duration
> start` (rows with a negative stored duration are never selected, because
the SQL `datetime` modifier built from them is malformed); an affected row
with `0 < start - E.timestamp` is truncated to that duration, any other
affected row is deleted; the new activity is inserted with the given start
and duration `end - start` and its fresh id returned — unless the call has
non-positive duration and a stored row equals the new one on the four
uniqueness columns, in which case nothing is inserted and 0 is returned. -/
theorem save_activity_resolution_amended (db : DB) (app title : String)
    (startT endT : Int) (idle : Bool) (pp : Option String)
    (hWF : ∀ r ∈ db.rows, r.id < db.next_id)
    (hids : db.rows.Pairwise (fun a b => a.id ≠ b.id)) :
    (∀ E ∈ db.rows,
        ¬(E.timestamp < endT ∧ 0 ≤ E.duration ∧
            startT < E.timestamp + E.duration) →
        E ∈ (save_activity db app title startT endT idle pp).2.rows) ∧
    (∀ E ∈ db.rows,
        (E.timestamp < endT ∧ 0 ≤ E.duration ∧
            startT < E.timestamp + E.duration) →
        0 < startT - E.timestamp →
        ({ E with duration := startT - E.timestamp } : Row) ∈
          (save_activity db app title startT endT idle pp).2.rows) ∧
    (∀ E ∈ db.rows,
        (E.timestamp < endT ∧ 0 ≤ E.duration ∧
            startT < E.timestamp + E.duration) →
        startT - E.timestamp ≤ 0 →
        ∀ r ∈ (save_activity db app title startT endT idle pp).2.rows,
          r.id ≠ E.id) ∧
    (¬(endT ≤ startT ∧
          ∃ E ∈ db.rows, matches4 startT app title (endT - startT) E = true) →
        (save_activity db app title startT endT idle pp).1 = db.next_id ∧
        (⟨db.next_id, startT, app, title, endT - startT, idle, pp⟩ : Row) ∈
          (save_activity db app title startT endT idle pp).2.rows) ∧
    ((endT ≤ startT ∧
          ∃ E ∈ db.rows, matches4 startT app title (endT - startT) E = true) →
        (save_activity db app title startT endT idle pp).1 = 0 ∧
        ∀ r ∈ (save_activity db app title startT endT idle pp).2.rows,
          r.id ≠ db.next_id) := by
  have hrows : ∀ m ∈ db.rows.filterMap (resolveRow startT (selOverlap startT endT)),
      m ∈ (save_activity db app title startT endT idle pp).2.rows := by
    intro m hm
    unfold save_activity
    by_cases hdup :
        ((db.rows.filterMap (resolveRow startT (selOverlap startT endT))).any
          (matches4 startT app title (endT - startT)) = true)
    · simp only [hdup, if_true]
      exact hm
    · simp only [hdup, Bool.false_eq_true, if_false]
      exact List.mem_append_left _ hm
  have hback : ∀ r ∈ (save_activity db app title startT endT idle pp).2.rows,
      r ∈ db.rows.filterMap (resolveRow startT (selOverlap startT endT)) ∨
        r = (⟨db.next_id, startT, app, title, endT - startT, idle, pp⟩ : Row) := by
    intro r hr
    unfold save_activity at hr
    by_cases hdup :
        ((db.rows.filterMap (resolveRow startT (selOverlap startT endT))).any
          (matches4 startT app title (endT - startT)) = true)
    · simp only [hdup, if_true] at hr
      exact Or.inl hr
    · simp only [hdup, Bool.false_eq_true, if_false] at hr
      rcases List.mem_append.mp hr with hr | hr
      · exact Or.inl hr
      · exact Or.inr (List.mem_singleton.mp hr)
  refine ⟨?_, ?_, ?_, ?_, ?_⟩
  · intro E hE hnot
    refine hrows E (List.mem_filterMap.mpr ⟨E, hE, resolveRow_of_not_sel ?_⟩)
    rw [Bool.eq_false_iff, Ne, selOverlap_iff]
    exact hnot
  · intro E hE hsel hpos
    exact hrows _ (List.mem_filterMap.mpr
      ⟨E, hE, resolveRow_of_sel_pos (selOverlap_iff.mpr hsel) hpos⟩)
  · intro E hE hsel hnp r hr hid
    have hsymm : Symmetric (fun a b : Row => a.id ≠ b.id) := by
      intro a b h he
      exact h he.symm
    rcases hback r hr with hr' | hr'
    · rw [List.mem_filterMap] at hr'
      obtain ⟨r0, hr0, hres⟩ := hr'
      have hid0 : r0.id = E.id := by
        obtain ⟨-, -, h3, -, -⟩ := resolveRow_shrinks hres
        rw [← h3, hid]
      by_cases heq : r0 = E
      · subst heq
        rw [resolveRow_of_sel_nonpos (selOverlap_iff.mpr hsel) hnp] at hres
        exact Option.noConfusion hres
      · exact List.Pairwise.forall hsymm hids hr0 hE heq hid0
    · have hidn : r.id = db.next_id := by rw [hr']
      have := hWF E hE
      omega
  · intro hno
    have hdup :
        ((db.rows.filterMap (resolveRow startT (selOverlap startT endT))).any
          (matches4 startT app title (endT - startT)) = false) := by
      rw [Bool.eq_false_iff, Ne, dup_check_iff]
      exact hno
    unfold save_activity
    simp only [hdup, Bool.false_eq_true, if_false]
    exact ⟨by trivial, List.mem_append_right _ (List.mem_singleton_self _)⟩
  · intro hyes
    have hdup :
        ((db.rows.filterMap (resolveRow startT (selOverlap startT endT))).any
          (matches4 startT app title (endT - startT)) = true) :=
      dup_check_iff.mpr hyes
    unfold save_activity
    simp only [hdup, if_true]
    refine ⟨by trivial, ?_⟩
    intro r hr hid
    rw [List.mem_filterMap] at hr
    obtain ⟨r0, hr0, hres⟩ := hr
    have hid0 : r0.id = db.next_id := by
      obtain ⟨-, -, h3, -, -⟩ := resolveRow_shrinks hres
      rw [← h3, hid]
    have := hWF r0 hr0
    omega

/-- C3 amended witness: saving `("b","u",[5,20))` over the store holding
`("a","t",[0,10))` truncates the old row to `[0,5)`, keeps no row that the
scan does not select, and inserts the new row with fresh id 2. -/
theorem save_activity_resolution_amended_witness :
    ({ (⟨1, 0, "a", "t", 10, false, none⟩ : Row) with duration := 5 - 0 } : Row) ∈
      (save_activity ⟨[⟨1, 0, "a", "t", 10, false, none⟩], 2⟩
        "b" "u" 5 20 false none).2.rows ∧
    (save_activity ⟨[⟨1, 0, "a", "t", 10, false, none⟩], 2⟩
        "b" "u" 5 20 false none).1 = 2 := by
  have h := save_activity_resolution_amended
    ⟨[⟨1, 0, "a", "t", 10, false, none⟩], 2⟩ "b" "u" 5 20 false none
    (by decide) (by decide)
  refine ⟨?_, ?_⟩
  · exact h.2.1 ⟨1, 0, "a", "t", 10, false, none⟩ (by decide)
      (by refine ⟨by decide, by decide, by decide⟩) (by decide)
  · exact (h.2.2.2.1 (by rintro ⟨hle, -⟩; omega)).1

/-! ## The timeline merger (src/gui/timeline.py, `_merge_activities`) -/

/-- An activity dict as consumed and produced by
`TimelineWidget._merge_activities`.  `end_time` is the derived field the
merger maintains; on input it is ignored (the merger always recomputes it
as `timestamp + duration` before first use). -/
structure TAct where
  id : Nat
  timestamp : Int
  app_name : String
  window_title : String
  duration : Int
  project_id : Option Int
  is_idle : Bool
  end_time : Int
deriving Repr, DecidableEq

/-- Python truthiness of the `project_id` value: `None` and `0` are falsy.
This models `current.get('project_id') and activity.get('project_id')`. -/
def truthy : Option Int → Bool
  | none => false
  | some v => v != 0

/-- The merge-eligibility decision of `_merge_activities` for accumulator
`cur` and next activity `a`, with `gap = a.timestamp - cur.end_time`:
idle activities never merge; same truthy project and same app merge within
`projGap`; otherwise same app merges within `mergeGap`. -/
def shouldMerge (mergeGap projGap : Int) (cur a : TAct) : Bool :=
  if cur.is_idle || a.is_idle then false
  else if truthy cur.project_id && truthy a.project_id &&
      cur.project_id == a.project_id && cur.app_name == a.app_name then
    decide (a.timestamp - cur.end_time ≤ projGap)
  else if cur.app_name == a.app_name then
    decide (a.timestamp - cur.end_time ≤ mergeGap)
  else false

/-- Extending the accumulator with a merged-in activity: `end_time` becomes
the new activity's end, `duration` is recomputed from the span, and the
window title is overwritten only when the new activity's title is
non-empty. -/
def mergeInto (cur a : TAct) : TAct :=
  let aEnd := a.timestamp + a.duration
  { cur with
      end_time := aEnd,
      duration := aEnd - cur.timestamp,
      window_title :=
        if a.window_title ≠ "" then a.window_title else cur.window_title }

/-- Starting a fresh accumulator from an activity: a copy with `end_time`
set to `timestamp + duration`. -/
def startBlock (a : TAct) : TAct :=
  { a with end_time := a.timestamp + a.duration }

/-- The fold of `_merge_activities` over the sorted activity list. -/
def mergeGo (mg pg : Int) (cur : TAct) : List TAct → List TAct
  | [] => [cur]
  | a :: rest =>
      if shouldMerge mg pg cur a then mergeGo mg pg (mergeInto cur a) rest
      else cur :: mergeGo mg pg (startBlock a) rest

/-- Stable insertion into a list sorted by ascending timestamp: the new
element goes before the first strictly-later element, hence after any
already-present element with an equal timestamp. -/
def insertByTs (a : TAct) : List TAct → List TAct
  | [] => [a]
  | b :: l => if b.timestamp < a.timestamp then b :: insertByTs a l
              else a :: b :: l

/-- Stable sort by ascending timestamp, modelling Python's stable
`sorted(..., key=lambda x: x['timestamp'])`. -/
def sortByTs : List TAct → List TAct
  | [] => []
  | a :: l => insertByTs a (sortByTs l)

/-- Model of `TimelineWidget._merge_activities`: drop activities shorter than
`minDur`, sort ascending by timestamp, then fold with the merge rules. -/
def mergeActivities (minDur mg pg : Int) (acts : List TAct) : List TAct :=
  let filtered := acts.filter (fun a => decide (minDur ≤ a.duration))
  match sortByTs filtered with
  | [] => []
  | a :: rest => mergeGo mg pg (startBlock a) rest

/-- C4 counterexample: with both activities carrying `project_id = 0`
(equal and non-null), the same app name, no idle flags, and a gap of 100
within `project_merge_gap = 180`, the claim demands a merge; the code
treats `0` as falsy (Python truthiness), falls through to the plain
`merge_gap = 60` test, and does not merge. -/
theorem shouldMerge_project_cex :
    shouldMerge 60 180
      ⟨1, 0, "a", "t", 50, some 0, false, 50⟩
      ⟨2, 150, "a", "u", 30, some 0, false, 0⟩ = false ∧
    (⟨1, 0, "a", "t", 50, some 0, false, 50⟩ : TAct).project_id =
      (⟨2, 150, "a", "u", 30, some 0, false, 0⟩ : TAct).project_id ∧
    (⟨1, 0, "a", "t", 50, some 0, false, 50⟩ : TAct).project_id ≠ none ∧
    (⟨1, 0, "a", "t", 50, some 0, false, 50⟩ : TAct).app_name =
      (⟨2, 150, "a", "u", 30, some 0, false, 0⟩ : TAct).app_name ∧
    (⟨1, 0, "a", "t", 50, some 0, false, 50⟩ : TAct).is_idle = false ∧
    (⟨2, 150, "a", "u", 30, some 0, false, 0⟩ : TAct).is_idle = false ∧
    ((⟨2, 150, "a", "u", 30, some 0, false, 0⟩ : TAct).timestamp -
        (⟨1, 0, "a", "t", 50, some 0, false, 50⟩ : TAct).end_time) ≤ 180 := by
  decide

/-- C4 amended: the decision order of the merger, with "non-null project"
corrected to "truthy project" (non-null and non-zero, Python truthiness):
idle on either side never merges; else with both projects truthy, equal,
and the same app name the test is `gap ≤ project_merge_gap`; else with the
same app name it is `gap ≤ merge_gap`; else never.  Moreover, whenever the
two gap thresholds are non-negative, a non-positive gap always passes the
applicable gap test, so the decision degenerates to "not idle and same
app". -/
theorem shouldMerge_amended (mg pg : Int) (cur a : TAct) :
    (shouldMerge mg pg cur a = true ↔
      (cur.is_idle = false ∧ a.is_idle = false ∧
        cur.app_name = a.app_name ∧
        ((truthy cur.project_id = true ∧ truthy a.project_id = true ∧
            cur.project_id = a.project_id ∧
            a.timestamp - cur.end_time ≤ pg) ∨
         (¬(truthy cur.project_id = true ∧ truthy a.project_id = true ∧
              cur.project_id = a.project_id) ∧
            a.timestamp - cur.end_time ≤ mg)))) ∧
    (0 ≤ mg → 0 ≤ pg → a.timestamp - cur.end_time ≤ 0 →
      shouldMerge mg pg cur a =
        (!cur.is_idle && !a.is_idle && (cur.app_name == a.app_name))) := by
  constructor
  · unfold shouldMerge
    by_cases h1 : (cur.is_idle || a.is_idle) = true
    · simp only [h1, if_true]
      rw [Bool.or_eq_true] at h1
      constructor
      · intro hc
        exact absurd hc Bool.false_ne_true
      · rintro ⟨hci, hai, -⟩
        rcases h1 with h | h
        · rw [hci] at h
          exact absurd h Bool.false_ne_true
        · rw [hai] at h
          exact absurd h Bool.false_ne_true
    · simp only [h1, Bool.false_eq_true, if_false]
      rw [Bool.or_eq_true, not_or, Bool.not_eq_true, Bool.not_eq_true] at h1
      obtain ⟨hci, hai⟩ := h1
      by_cases h2 : (truthy cur.project_id && truthy a.project_id &&
          cur.project_id == a.project_id && cur.app_name == a.app_name) = true
      · simp only [h2, if_true]
        simp only [Bool.and_eq_true, beq_iff_eq] at h2
        obtain ⟨⟨⟨ht1, ht2⟩, hpe⟩, hae⟩ := h2
        simp only [decide_eq_true_eq]
        constructor
        · intro hg
          exact ⟨hci, hai, hae, Or.inl ⟨ht1, ht2, hpe, hg⟩⟩
        · rintro ⟨-, -, -, h | h⟩
          · exact h.2.2.2
          · exact absurd ⟨ht1, ht2, hpe⟩ h.1
      · simp only [h2, Bool.false_eq_true, if_false]
        by_cases h3 : (cur.app_name == a.app_name) = true
        · simp only [h3, if_true, decide_eq_true_eq]
          rw [beq_iff_eq] at h3
          have hnp : ¬(truthy cur.project_id = true ∧ truthy a.project_id = true ∧
              cur.project_id = a.project_id) := by
            intro hc
            apply h2
            simp only [Bool.and_eq_true, beq_iff_eq]
            exact ⟨⟨⟨hc.1, hc.2.1⟩, hc.2.2⟩, h3⟩
          constructor
          · intro hg
            exact ⟨hci, hai, h3, Or.inr ⟨hnp, hg⟩⟩
          · rintro ⟨-, -, -, h | h⟩
            · exact absurd ⟨h.1, h.2.1, h.2.2.1⟩ hnp
            · exact h.2
        · simp only [h3, Bool.false_eq_true, if_false]
          rw [Bool.not_eq_true, Bool.eq_false_iff, Ne, beq_iff_eq] at h3
          constructor
          · intro hc
            exact hc.elim
          · rintro ⟨-, -, hae, -⟩
            exact absurd hae h3
  · intro hmg hpg hgap
    unfold shouldMerge
    by_cases h1 : (cur.is_idle || a.is_idle) = true
    · simp only [h1, if_true]
      rw [Bool.or_eq_true] at h1
      rcases h1 with h | h <;> rw [h] <;> simp
    · simp only [h1, Bool.false_eq_true, if_false]
      rw [Bool.or_eq_true, not_or, Bool.not_eq_true, Bool.not_eq_true] at h1
      obtain ⟨hci, hai⟩ := h1
      rw [hci, hai]
      by_cases h2 : (truthy cur.project_id && truthy a.project_id &&
          cur.project_id == a.project_id && cur.app_name == a.app_name) = true
      · simp only [h2, if_true]
        have hae : (cur.app_name == a.app_name) = true := by
          simp only [Bool.and_eq_true] at h2
          exact h2.2
        rw [hae]
        simp only [Bool.not_false, Bool.true_and, Bool.and_true, Bool.and_self]
        exact decide_eq_true (by omega)
      · simp only [h2, Bool.false_eq_true, if_false]
        by_cases h3 : (cur.app_name == a.app_name) = true
        · simp only [h3, if_true, Bool.not_false, Bool.true_and,
            Bool.and_true, Bool.and_self]
          exact decide_eq_true (by omega)
        · simp only [h3, Bool.false_eq_true, if_false, Bool.not_false,
            Bool.true_and, Bool.and_self]

/-- C4 amended witness: two non-idle same-app activities with untruthy
projects and gap 0 merge under thresholds 60/180. -/
theorem shouldMerge_amended_witness :
    shouldMerge 60 180
        ⟨1, 0, "a", "t", 50, none, false, 50⟩
        ⟨2, 50, "a", "u", 30, none, false, 0⟩ =
      (!(false : Bool) && !(false : Bool) && ("a" == "a")) :=
  (shouldMerge_amended 60 180
      ⟨1, 0, "a", "t", 50, none, false, 50⟩
      ⟨2, 50, "a", "u", 30, none, false, 0⟩).2
    (by decide) (by decide) (by decide)

/-- The end-time consistency every block produced by the merger satisfies. -/
def EC (b : TAct) : Prop := b.end_time = b.timestamp + b.duration

/-- Equality on the fields the merger never modifies on its accumulator. -/
def frameEq (b a : TAct) : Prop :=
  b.timestamp = a.timestamp ∧ b.app_name = a.app_name ∧
    b.project_id = a.project_id ∧ b.is_idle = a.is_idle ∧ b.id = a.id

theorem frameEq_refl (a : TAct) : frameEq a a := ⟨rfl, rfl, rfl, rfl, rfl⟩

theorem frameEq_trans {a b c : TAct} (h1 : frameEq a b) (h2 : frameEq b c) :
    frameEq a c := by
  obtain ⟨x1, x2, x3, x4, x5⟩ := h1
  obtain ⟨y1, y2, y3, y4, y5⟩ := h2
  exact ⟨x1.trans y1, x2.trans y2, x3.trans y3, x4.trans y4, x5.trans y5⟩

theorem mergeInto_frame (cur a : TAct) : frameEq (mergeInto cur a) cur :=
  ⟨rfl, rfl, rfl, rfl, rfl⟩

theorem startBlock_frame (a : TAct) : frameEq (startBlock a) a :=
  ⟨rfl, rfl, rfl, rfl, rfl⟩

theorem EC_mergeInto (cur a : TAct) : EC (mergeInto cur a) := by
  unfold EC mergeInto
  dsimp only
  omega

theorem EC_startBlock (a : TAct) : EC (startBlock a) := rfl

theorem startBlock_eq_self {a : TAct} (h : EC a) : startBlock a = a := by
  cases a
  unfold EC at h
  dsimp only at h
  unfold startBlock
  dsimp only
  rw [← h]

/-- The merge decision only inspects `timestamp`, `app_name`, `project_id`
and `is_idle` of the incoming activity. -/
theorem shouldMerge_congr (mg pg : Int) (cur : TAct) {x y : TAct}
    (h : frameEq x y) : shouldMerge mg pg cur x = shouldMerge mg pg cur y := by
  obtain ⟨h1, h2, h3, h4, h5⟩ := h
  unfold shouldMerge
  rw [h1, h2, h3, h4]

theorem mem_insertByTs {a x : TAct} :
    ∀ {l : List TAct}, x ∈ insertByTs a l ↔ x = a ∨ x ∈ l := by
  intro l
  induction l with
  | nil => simp [insertByTs]
  | cons b l ih =>
      unfold insertByTs
      by_cases h : b.timestamp < a.timestamp
      · simp only [h, if_true, List.mem_cons, ih]
        tauto
      · simp only [h, if_false, List.mem_cons]

theorem insertByTs_perm (a : TAct) :
    ∀ l : List TAct, (insertByTs a l).Perm (a :: l) := by
  intro l
  induction l with
  | nil => exact List.Perm.refl _
  | cons b l ih =>
      unfold insertByTs
      by_cases h : b.timestamp < a.timestamp
      · simp only [h, if_true]
        exact (ih.cons b).trans (List.Perm.swap a b l)
      · simp only [h, if_false]
        exact List.Perm.refl _

theorem sortByTs_perm : ∀ l : List TAct, (sortByTs l).Perm l := by
  intro l
  induction l with
  | nil => exact List.Perm.refl _
  | cons a l ih =>
      unfold sortByTs
      exact (insertByTs_perm a (sortByTs l)).trans (ih.cons a)

theorem mem_sortByTs {x : TAct} {l : List TAct} :
    x ∈ sortByTs l ↔ x ∈ l :=
  (sortByTs_perm l).mem_iff

theorem sorted_insertByTs {a : TAct} :
    ∀ {l : List TAct},
      l.Pairwise (fun x y => x.timestamp ≤ y.timestamp) →
      (insertByTs a l).Pairwise (fun x y => x.timestamp ≤ y.timestamp) := by
  intro l
  induction l with
  | nil =>
      intro _
      exact List.pairwise_singleton _ _
  | cons b l ih =>
      intro h
      rw [List.pairwise_cons] at h
      obtain ⟨hb, hl⟩ := h
      unfold insertByTs
      by_cases hlt : b.timestamp < a.timestamp
      · simp only [hlt, if_true]
        rw [List.pairwise_cons]
        refine ⟨?_, ih hl⟩
        intro y hy
        rcases mem_insertByTs.mp hy with hy | hy
        · subst hy
          omega
        · exact hb y hy
      · simp only [hlt, if_false]
        rw [List.pairwise_cons]
        refine ⟨?_, List.pairwise_cons.mpr ⟨hb, hl⟩⟩
        intro y hy
        rcases List.mem_cons.mp hy with hy | hy
        · subst hy
          omega
        · have := hb y hy
          omega

theorem sorted_sortByTs :
    ∀ l : List TAct,
      (sortByTs l).Pairwise (fun x y => x.timestamp ≤ y.timestamp) := by
  intro l
  induction l with
  | nil => exact List.Pairwise.nil
  | cons a l ih =>
      unfold sortByTs
      exact sorted_insertByTs ih

theorem insertByTs_of_le {a : TAct} {l : List TAct}
    (h : ∀ x ∈ l, a.timestamp ≤ x.timestamp) : insertByTs a l = a :: l := by
  cases l with
  | nil => rfl
  | cons b l =>
      unfold insertByTs
      have := h b (List.mem_cons_self b l)
      rw [if_neg (by omega)]

theorem sortByTs_of_sorted :
    ∀ {l : List TAct},
      l.Pairwise (fun x y => x.timestamp ≤ y.timestamp) → sortByTs l = l := by
  intro l
  induction l with
  | nil => intro _; rfl
  | cons a l ih =>
      intro h
      rw [List.pairwise_cons] at h
      unfold sortByTs
      rw [ih h.2]
      exact insertByTs_of_le h.1

/-- The fold's output is non-empty and its head carries the accumulator's
frame fields. -/
theorem mergeGo_head (mg pg : Int) :
    ∀ (l : List TAct) (cur : TAct),
      ∃ d rest, mergeGo mg pg cur l = d :: rest ∧ frameEq d cur := by
  intro l
  induction l with
  | nil =>
      intro cur
      exact ⟨cur, [], rfl, frameEq_refl cur⟩
  | cons a rest ih =>
      intro cur
      unfold mergeGo
      by_cases h : shouldMerge mg pg cur a = true
      · simp only [h, if_true]
        obtain ⟨d, rest', heq, hframe⟩ := ih (mergeInto cur a)
        exact ⟨d, rest', heq, frameEq_trans hframe (mergeInto_frame cur a)⟩
      · simp only [h, Bool.false_eq_true, if_false]
        exact ⟨cur, _, rfl, frameEq_refl cur⟩

/-- Every output block carries the frame fields of the accumulator or of
some input activity. -/
theorem mergeGo_mem_frame (mg pg : Int) :
    ∀ (l : List TAct) (cur b : TAct), b ∈ mergeGo mg pg cur l →
      frameEq b cur ∨ ∃ a ∈ l, frameEq b a := by
  intro l
  induction l with
  | nil =>
      intro cur b hb
      rw [mergeGo, List.mem_singleton] at hb
      subst hb
      exact Or.inl (frameEq_refl b)
  | cons a rest ih =>
      intro cur b hb
      rw [mergeGo] at hb
      by_cases h : shouldMerge mg pg cur a = true
      · rw [if_pos h] at hb
        rcases ih _ b hb with hf | ⟨x, hx, hf⟩
        · exact Or.inl (frameEq_trans hf (mergeInto_frame cur a))
        · exact Or.inr ⟨x, List.mem_cons_of_mem a hx, hf⟩
      · rw [if_neg h] at hb
        rcases List.mem_cons.mp hb with hb | hb
        · subst hb
          exact Or.inl (frameEq_refl b)
        · rcases ih _ b hb with hf | ⟨x, hx, hf⟩
          · exact Or.inr ⟨a, List.mem_cons_self a rest,
              frameEq_trans hf (startBlock_frame a)⟩
          · exact Or.inr ⟨x, List.mem_cons_of_mem a hx, hf⟩

/-- Every output block is end-time consistent, provided the accumulator is. -/
theorem mergeGo_EC (mg pg : Int) :
    ∀ (l : List TAct) (cur : TAct), EC cur →
      ∀ b ∈ mergeGo mg pg cur l, EC b := by
  intro l
  induction l with
  | nil =>
      intro cur hcur b hb
      rw [mergeGo, List.mem_singleton] at hb
      subst hb
      exact hcur
  | cons a rest ih =>
      intro cur hcur b hb
      rw [mergeGo] at hb
      by_cases h : shouldMerge mg pg cur a = true
      · rw [if_pos h] at hb
        exact ih _ (EC_mergeInto cur a) b hb
      · rw [if_neg h] at hb
        rcases List.mem_cons.mp hb with hb | hb
        · subst hb
          exact hcur
        · exact ih _ (EC_startBlock a) b hb

/-- Every output block is at least as long as the noise filter requires,
provided the inputs are and the input list is sorted. -/
theorem mergeGo_minDur (mg pg minDur : Int) :
    ∀ (l : List TAct) (cur : TAct),
      minDur ≤ cur.duration →
      (∀ x ∈ l, minDur ≤ x.duration) →
      (∀ x ∈ l, cur.timestamp ≤ x.timestamp) →
      l.Pairwise (fun x y => x.timestamp ≤ y.timestamp) →
      ∀ b ∈ mergeGo mg pg cur l, minDur ≤ b.duration := by
  intro l
  induction l with
  | nil =>
      intro cur hcur _ _ _ b hb
      rw [mergeGo, List.mem_singleton] at hb
      subst hb
      exact hcur
  | cons a rest ih =>
      intro cur hcur hdur hts hsort b hb
      rw [List.pairwise_cons] at hsort
      rw [mergeGo] at hb
      by_cases h : shouldMerge mg pg cur a = true
      · rw [if_pos h] at hb
        refine ih (mergeInto cur a) ?_ ?_ ?_ hsort.2 b hb
        · have h1 := hdur a (List.mem_cons_self a rest)
          have h2 := hts a (List.mem_cons_self a rest)
          unfold mergeInto
          dsimp only
          omega
        · exact fun x hx => hdur x (List.mem_cons_of_mem a hx)
        · exact fun x hx => hts x (List.mem_cons_of_mem a hx)
      · rw [if_neg h] at hb
        rcases List.mem_cons.mp hb with hb | hb
        · subst hb
          exact hcur
        · refine ih (startBlock a) ?_ ?_ ?_ hsort.2 b hb
          · exact hdur a (List.mem_cons_self a rest)
          · exact fun x hx => hdur x (List.mem_cons_of_mem a hx)
          · exact fun x hx => hsort.1 x hx

/-- Every output block's timestamp is the accumulator's or an input's. -/
theorem mergeGo_mem_ts (mg pg : Int) {l : List TAct} {cur b : TAct}
    (hb : b ∈ mergeGo mg pg cur l) :
    b.timestamp = cur.timestamp ∨ ∃ a ∈ l, b.timestamp = a.timestamp := by
  rcases mergeGo_mem_frame mg pg l cur b hb with hf | ⟨x, hx, hf⟩
  · exact Or.inl hf.1
  · exact Or.inr ⟨x, hx, hf.1⟩

/-- The output blocks are sorted by ascending timestamp. -/
theorem mergeGo_sorted (mg pg : Int) :
    ∀ (l : List TAct) (cur : TAct),
      (∀ x ∈ l, cur.timestamp ≤ x.timestamp) →
      l.Pairwise (fun x y => x.timestamp ≤ y.timestamp) →
      (mergeGo mg pg cur l).Pairwise
        (fun x y => x.timestamp ≤ y.timestamp) := by
  intro l
  induction l with
  | nil =>
      intro cur _ _
      rw [mergeGo]
      exact List.pairwise_singleton _ _
  | cons a rest ih =>
      intro cur hts hsort
      rw [List.pairwise_cons] at hsort
      rw [mergeGo]
      by_cases h : shouldMerge mg pg cur a = true
      · rw [if_pos h]
        refine ih (mergeInto cur a) ?_ hsort.2
        intro x hx
        have := hts x (List.mem_cons_of_mem a hx)
        unfold mergeInto
        dsimp only
        omega
      · rw [if_neg h]
        rw [List.pairwise_cons]
        constructor
        · intro b hb
          rcases mergeGo_mem_ts mg pg hb with hf | ⟨x, hx, hf⟩
          · rw [hf]
            exact hts a (List.mem_cons_self a rest)
          · rw [hf]
            exact hts x (List.mem_cons_of_mem a hx)
        · refine ih (startBlock a) ?_ hsort.2
          intro x hx
          exact hsort.1 x hx

/-- Adjacent output blocks never satisfy the merge decision: the boundary
between two blocks was decided with exactly the data the re-run would see. -/
theorem mergeGo_chain (mg pg : Int) :
    ∀ (l : List TAct) (cur : TAct),
      List.Chain' (fun b b' => shouldMerge mg pg b b' = false)
        (mergeGo mg pg cur l) := by
  intro l
  induction l with
  | nil =>
      intro cur
      rw [mergeGo]
      exact List.chain'_singleton _
  | cons a rest ih =>
      intro cur
      rw [mergeGo]
      by_cases h : shouldMerge mg pg cur a = true
      · rw [if_pos h]
        exact ih (mergeInto cur a)
      · rw [if_neg h]
        obtain ⟨d, rest', heq, hframe⟩ := mergeGo_head mg pg rest (startBlock a)
        rw [heq, List.chain'_cons]
        constructor
        · rw [shouldMerge_congr mg pg cur
            (frameEq_trans hframe (startBlock_frame a))]
          exact Bool.eq_false_iff.mpr h
        · rw [← heq]
          exact ih (startBlock a)

/-- Replaying the fold over an end-time-consistent output in which no two
adjacent blocks are merge-eligible reproduces it verbatim. -/
theorem mergeGo_fixpoint (mg pg : Int) :
    ∀ (l : List TAct) (cur : TAct), EC cur → (∀ b ∈ l, EC b) →
      List.Chain' (fun b b' => shouldMerge mg pg b b' = false) (cur :: l) →
      mergeGo mg pg cur l = cur :: l := by
  intro l
  induction l with
  | nil =>
      intro cur _ _ _
      rfl
  | cons a rest ih =>
      intro cur hcur hEC hchain
      rw [List.chain'_cons] at hchain
      rw [mergeGo, if_neg (by rw [hchain.1]; exact Bool.false_ne_true)]
      rw [startBlock_eq_self (hEC a (List.mem_cons_self a rest))]
      rw [ih a (hEC a (List.mem_cons_self a rest))
        (fun b hb => hEC b (List.mem_cons_of_mem a hb)) hchain.2]

/-- C5: the timeline merger is idempotent — re-running
`_merge_activities` on its own output, with the same
`min_activity_duration`, `merge_gap` and `project_merge_gap`, returns the
output unchanged: every block passes the noise filter, the blocks are
already sorted, and no adjacent pair of blocks is merge-eligible. -/
theorem mergeActivities_idempotent (minDur mg pg : Int) (acts : List TAct) :
    mergeActivities minDur mg pg (mergeActivities minDur mg pg acts) =
      mergeActivities minDur mg pg acts := by
  cases hs : sortByTs (acts.filter (fun a => decide (minDur ≤ a.duration))) with
  | nil =>
      have hout : mergeActivities minDur mg pg acts = [] := by
        simp only [mergeActivities]
        rw [hs]
      rw [hout]
      rfl
  | cons f rest =>
      have hout : mergeActivities minDur mg pg acts =
          mergeGo mg pg (startBlock f) rest := by
        simp only [mergeActivities]
        rw [hs]
      have hsorted :=
        sorted_sortByTs (acts.filter (fun a => decide (minDur ≤ a.duration)))
      rw [hs, List.pairwise_cons] at hsorted
      have hdurs : ∀ x ∈ f :: rest, minDur ≤ x.duration := by
        intro x hx
        have hx' : x ∈ sortByTs (acts.filter (fun a => decide (minDur ≤ a.duration))) := by
          rw [hs]
          exact hx
        have hmem := (List.mem_filter.mp (mem_sortByTs.mp hx')).2
        exact of_decide_eq_true hmem
      have hdur_out : ∀ b ∈ mergeGo mg pg (startBlock f) rest,
          minDur ≤ b.duration := by
        refine mergeGo_minDur mg pg minDur rest (startBlock f) ?_ ?_ ?_ hsorted.2
        · exact hdurs f (List.mem_cons_self f rest)
        · exact fun x hx => hdurs x (List.mem_cons_of_mem f hx)
        · exact fun x hx => hsorted.1 x hx
      have hEC_out : ∀ b ∈ mergeGo mg pg (startBlock f) rest, EC b :=
        mergeGo_EC mg pg rest (startBlock f) (EC_startBlock f)
      have hsort_out := mergeGo_sorted mg pg rest (startBlock f)
        (fun x hx => hsorted.1 x hx) hsorted.2
      have hchain := mergeGo_chain mg pg rest (startBlock f)
      obtain ⟨d, rest', hshape, -⟩ := mergeGo_head mg pg rest (startBlock f)
      rw [hout]
      simp only [mergeActivities]
      rw [List.filter_eq_self.mpr (fun b hb => decide_eq_true (hdur_out b hb)),
        sortByTs_of_sorted hsort_out, hshape]
      show mergeGo mg pg (startBlock d) rest' = d :: rest'
      rw [hshape] at hEC_out hchain
      rw [startBlock_eq_self (hEC_out d (List.mem_cons_self d rest'))]
      exact mergeGo_fixpoint mg pg rest' d
        (hEC_out d (List.mem_cons_self d rest'))
        (fun b hb => hEC_out b (List.mem_cons_of_mem d hb)) hchain

/-- When every upcoming activity starts no earlier than the accumulator
ends and the upcoming activities are pairwise end-before-start chained, the
output blocks are pairwise end-before-start chained. -/
theorem mergeGo_endBefore (mg pg : Int) :
    ∀ (l : List TAct) (cur : TAct), EC cur →
      (∀ x ∈ l, cur.end_time ≤ x.timestamp) →
      l.Pairwise (fun x y => x.timestamp + x.duration ≤ y.timestamp) →
      (mergeGo mg pg cur l).Pairwise
        (fun b b' => b.timestamp + b.duration ≤ b'.timestamp) := by
  intro l
  induction l with
  | nil =>
      intro cur _ _ _
      rw [mergeGo]
      exact List.pairwise_singleton _ _
  | cons a rest ih =>
      intro cur hcur hts hchain
      rw [List.pairwise_cons] at hchain
      rw [mergeGo]
      by_cases h : shouldMerge mg pg cur a = true
      · rw [if_pos h]
        refine ih (mergeInto cur a) (EC_mergeInto cur a) ?_ hchain.2
        intro x hx
        have := hchain.1 x hx
        unfold mergeInto
        dsimp only
        omega
      · rw [if_neg h]
        rw [List.pairwise_cons]
        constructor
        · intro b hb
          unfold EC at hcur
          rcases mergeGo_mem_ts mg pg hb with hf | ⟨x, hx, hf⟩
          · have := hts a (List.mem_cons_self a rest)
            unfold startBlock at hf
            dsimp only at hf
            omega
          · have := hts x (List.mem_cons_of_mem a hx)
            omega
        · refine ih (startBlock a) (EC_startBlock a) ?_ hchain.2
          intro x hx
          have := hchain.1 x hx
          unfold startBlock
          dsimp only
          omega

/-- C6 counterexample: the merger does not make overlapping inputs
disjoint.  Two overlapping activities of different apps — `[0,100)` of app
"a" and `[50,150)` of app "b" — pass through unmerged, and the two output
blocks still overlap. -/
theorem mergeActivities_disjoint_cex :
    ¬ (mergeActivities 10 60 180
        [⟨1, 0, "a", "t", 100, none, false, 0⟩,
         ⟨2, 50, "b", "u", 100, none, false, 0⟩]).Pairwise
      (fun b b' => ivlDisj b.timestamp b.duration b'.timestamp b'.duration) := by
  decide

/-- C6 amended: provided `min_activity_duration` is positive (so the noise
filter removes all empty intervals; the default is 10) and the input
intervals `[timestamp, timestamp + duration)` are pairwise non-overlapping,
the merger's output intervals are pairwise non-overlapping; and
unconditionally the merger never bridges an idle and a non-idle activity:
the merge decision is negative whenever the two `is_idle` flags differ. -/
theorem mergeActivities_disjoint_amended (minDur mg pg : Int)
    (acts : List TAct) (hmin : 0 < minDur)
    (hdisj : acts.Pairwise
      (fun x y => ivlDisj x.timestamp x.duration y.timestamp y.duration)) :
    (mergeActivities minDur mg pg acts).Pairwise
      (fun b b' => ivlDisj b.timestamp b.duration b'.timestamp b'.duration) ∧
    (∀ cur a : TAct, cur.is_idle ≠ a.is_idle →
      shouldMerge mg pg cur a = false) := by
  constructor
  · have hdisj' : (acts.filter (fun a => decide (minDur ≤ a.duration))).Pairwise
        (fun x y => ivlDisj x.timestamp x.duration y.timestamp y.duration) :=
      List.Pairwise.sublist (List.filter_sublist acts) hdisj
    have hdurf : ∀ x ∈ acts.filter (fun a => decide (minDur ≤ a.duration)),
        0 < x.duration := by
      intro x hx
      have := of_decide_eq_true (List.mem_filter.mp hx).2
      omega
    have hdisjs : (sortByTs (acts.filter (fun a => decide (minDur ≤ a.duration)))).Pairwise
        (fun x y => ivlDisj x.timestamp x.duration y.timestamp y.duration) := by
      refine ((sortByTs_perm _).pairwise_iff ?_).mpr hdisj'
      intro x y h
      exact ivlDisj_symm h
    have hsorts := sorted_sortByTs (acts.filter (fun a => decide (minDur ≤ a.duration)))
    have hdurs : ∀ x ∈ sortByTs (acts.filter (fun a => decide (minDur ≤ a.duration))),
        0 < x.duration := by
      intro x hx
      exact hdurf x (mem_sortByTs.mp hx)
    have hchain : (sortByTs (acts.filter (fun a => decide (minDur ≤ a.duration)))).Pairwise
        (fun x y => x.timestamp + x.duration ≤ y.timestamp) := by
      have hand := List.pairwise_and_iff.mpr ⟨hdisjs, hsorts⟩
      refine hand.imp_of_mem ?_
      intro x y hx hy hxy
      have hdx := hdurs x hx
      have hdy := hdurs y hy
      obtain ⟨h1, h2⟩ := hxy
      unfold ivlDisj at h1
      omega
    cases hs : sortByTs (acts.filter (fun a => decide (minDur ≤ a.duration))) with
    | nil =>
        have hout : mergeActivities minDur mg pg acts = [] := by
          simp only [mergeActivities]
          rw [hs]
        rw [hout]
        exact List.Pairwise.nil
    | cons f rest =>
        have hout : mergeActivities minDur mg pg acts =
            mergeGo mg pg (startBlock f) rest := by
          simp only [mergeActivities]
          rw [hs]
        rw [hout]
        rw [hs, List.pairwise_cons] at hchain
        have hEB := mergeGo_endBefore mg pg rest (startBlock f)
          (EC_startBlock f) (fun x hx => hchain.1 x hx) hchain.2
        refine hEB.imp ?_
        intro b b' h
        unfold ivlDisj
        omega
  · intro cur a h
    unfold shouldMerge
    cases hc : cur.is_idle with
    | true => rw [Bool.true_or, if_pos rfl]
    | false =>
        cases ha : a.is_idle with
        | true => rw [Bool.or_true, if_pos rfl]
        | false =>
            rw [hc, ha] at h
            exact absurd rfl h

/-- C6 amended witness: two disjoint same-app activities merge into a
single block, trivially pairwise disjoint. -/
theorem mergeActivities_disjoint_amended_witness :
    (mergeActivities 10 60 180
        [⟨1, 0, "a", "t", 30, none, false, 0⟩,
         ⟨2, 80, "a", "u", 30, none, false, 0⟩]).Pairwise
      (fun b b' => ivlDisj b.timestamp b.duration b'.timestamp b'.duration) :=
  (mergeActivities_disjoint_amended 10 60 180
      [⟨1, 0, "a", "t", 30, none, false, 0⟩,
       ⟨2, 80, "a", "u", 30, none, false, 0⟩]
      (by decide) (by decide)).1

/-- C10: merging is a frame-preserving extension of the accumulator.  The
merge step keeps `timestamp`, `app_name`, `project_id`, `is_idle` and `id`
of the accumulator (which carries them from the block's first, earliest
constituent), sets `end_time` to the merged-in activity's end and
`duration` to the resulting span, and overwrites `window_title` only when
the merged-in activity's title is non-empty; consequently every output
block of the merger carries the frame fields of some input activity. -/
theorem mergeActivities_frame (minDur mg pg : Int) (acts : List TAct) :
    (∀ cur a : TAct,
        (mergeInto cur a).timestamp = cur.timestamp ∧
        (mergeInto cur a).app_name = cur.app_name ∧
        (mergeInto cur a).project_id = cur.project_id ∧
        (mergeInto cur a).is_idle = cur.is_idle ∧
        (mergeInto cur a).id = cur.id ∧
        (mergeInto cur a).end_time = a.timestamp + a.duration ∧
        (mergeInto cur a).duration =
          a.timestamp + a.duration - cur.timestamp ∧
        (mergeInto cur a).window_title =
          (if a.window_title ≠ "" then a.window_title
           else cur.window_title)) ∧
    (∀ b ∈ mergeActivities minDur mg pg acts, ∃ a ∈ acts,
        b.timestamp = a.timestamp ∧ b.app_name = a.app_name ∧
        b.project_id = a.project_id ∧ b.is_idle = a.is_idle ∧
        b.id = a.id) := by
  constructor
  · intro cur a
    exact ⟨rfl, rfl, rfl, rfl, rfl, rfl, rfl, rfl⟩
  · intro b hb
    cases hs : sortByTs (acts.filter (fun a => decide (minDur ≤ a.duration))) with
    | nil =>
        have hout : mergeActivities minDur mg pg acts = [] := by
          simp only [mergeActivities]
          rw [hs]
        rw [hout] at hb
        exact absurd hb (List.not_mem_nil b)
    | cons f rest =>
        have hout : mergeActivities minDur mg pg acts =
            mergeGo mg pg (startBlock f) rest := by
          simp only [mergeActivities]
          rw [hs]
        rw [hout] at hb
        have hsub : ∀ x ∈ f :: rest, x ∈ acts := by
          intro x hx
          have hx' : x ∈ sortByTs (acts.filter (fun a => decide (minDur ≤ a.duration))) := by
            rw [hs]
            exact hx
          exact (List.mem_filter.mp (mem_sortByTs.mp hx')).1
        rcases mergeGo_mem_frame mg pg rest (startBlock f) b hb with hf |
          ⟨x, hx, hf⟩
        · have hf' := frameEq_trans hf (startBlock_frame f)
          exact ⟨f, hsub f (List.mem_cons_self f rest), hf'⟩
        · exact ⟨x, hsub x (List.mem_cons_of_mem f hx), hf⟩

/-- C10 witness: merging `[0,30)` and `[80,110)` of app "a" under thresholds
10/60/180 produces one block carrying the first constituent's frame
fields. -/
theorem mergeActivities_frame_witness :
    ∃ a ∈ [(⟨1, 0, "a", "t", 30, none, false, 0⟩ : TAct),
           ⟨2, 80, "a", "tt", 30, none, false, 0⟩],
      (⟨1, 0, "a", "tt", 110, none, false, 110⟩ : TAct).timestamp = a.timestamp ∧
      (⟨1, 0, "a", "tt", 110, none, false, 110⟩ : TAct).app_name = a.app_name ∧
      (⟨1, 0, "a", "tt", 110, none, false, 110⟩ : TAct).project_id = a.project_id ∧
      (⟨1, 0, "a", "tt", 110, none, false, 110⟩ : TAct).is_idle = a.is_idle ∧
      (⟨1, 0, "a", "tt", 110, none, false, 110⟩ : TAct).id = a.id :=
  (mergeActivities_frame 10 60 180
      [⟨1, 0, "a", "t", 30, none, false, 0⟩,
       ⟨2, 80, "a", "tt", 30, none, false, 0⟩]).2
    ⟨1, 0, "a", "tt", 110, none, false, 110⟩ (by decide)

/-! ## The smart project assigner (src/utils/smart_project_assigner.py) -/

/-- A word character of the regex `\w`, at ASCII level (the Python regex is
Unicode-aware; all inputs considered here are ASCII). -/
def isWordChar (c : Char) : Bool := c.isAlphanum || c == '_'

/-- Split a character list into its maximal runs of word characters,
accumulating the current run in reverse. -/
def runsAux : List Char → List Char → List (List Char)
  | [], acc => if acc.isEmpty then [] else [acc.reverse]
  | c :: cs, acc =>
      if isWordChar c then runsAux cs (c :: acc)
      else if acc.isEmpty then runsAux cs []
      else acc.reverse :: runsAux cs []

/-- Model of `re.findall(r"\b\w{4,}\b", title.lower())`: the maximal word-character
runs of the lowercased title that are at least 4 characters long (a `\b`
boundary cannot occur inside a run, so the matches are exactly the maximal
runs of length ≥ 4). -/
def extractKeywords (title : String) : List String :=
  ((runsAux (title.toList.map Char.toLower) []).filter
      (fun r => decide (4 ≤ r.length))).map (fun r => String.mk r)

/-- An activity as consumed by `learn_from_history`. -/
structure LAct where
  app_name : String
  window_title : String
  project_id : Option Int
  duration : Int
deriving Repr, DecidableEq

/-- Python `dict` lookup on an insertion-ordered association list. -/
def lookupA {α β : Type} [BEq α] : List (α × β) → α → Option β
  | [], _ => none
  | (k, v) :: rest, key => if k == key then some v else lookupA rest key

/-- Step `keyword_projects[keyword][project_id] += duration` at the inner level:
add `d` to the entry of `pid`, inserting it at the end if absent. -/
def addDur (pid d : Int) : List (Int × Int) → List (Int × Int)
  | [] => [(pid, d)]
  | (k, v) :: rest =>
      if k == pid then (k, v + d) :: rest else (k, v) :: addDur pid d rest

/-- Step `keyword_projects[keyword][project_id] += duration` at the outer level. -/
def addKw (kw : String) (pid d : Int) :
    List (String × List (Int × Int)) → List (String × List (Int × Int))
  | [] => [(kw, [(pid, d)])]
  | (k, tbl) :: rest =>
      if k == kw then (k, addDur pid d tbl) :: rest
      else (k, tbl) :: addKw kw pid d rest

/-- The `keyword_projects` table of `learn_from_history`: for each assigned
activity (Python-truthy `project_id`) and each keyword extracted from its
lowercased window title (with multiplicity), add the activity's duration to
the `(keyword, project_id)` cell.  Insertion order models dict order. -/
def keywordTable (acts : List LAct) : List (String × List (Int × Int)) :=
  (acts.filter (fun a => truthy a.project_id)).foldl
    (fun t a =>
      (extractKeywords a.window_title).foldl
        (fun t kw => addKw kw (a.project_id.getD 0) a.duration t) t) []

/-- Model of `max(project_durations.items(), key=lambda x: x[1])`: the first entry
with the maximal accumulated duration (Python's `max` keeps the earlier
item on ties). -/
def maxBySnd : List (Int × Int) → Option (Int × Int)
  | [] => none
  | x :: l => some (l.foldl (fun best y => if best.2 < y.2 then y else best) x)

/-- Model of `sum(project_durations.values())`. -/
def totalDur (tbl : List (Int × Int)) : Int := (tbl.map (fun e => e.2)).sum

/-- One iteration of the `keyword_project_map` construction loop:
`best_project[1] / total_time > 0.6`, modelled over ℚ (the source divides
floats; for the integer second counts involved the two comparisons agree —
a float discrepancy would need totals beyond 2^52 seconds.  For a zero
total the source raises `ZeroDivisionError` where ℚ division yields 0; the
C7 theorem therefore assumes positive durations, making every total
positive). -/
def kwEntry (e : String × List (Int × Int)) : Option (String × Int) :=
  match maxBySnd e.2 with
  | none => none
  | some best =>
      if (3 : ℚ) / 5 < (best.2 : ℚ) / (totalDur e.2 : ℚ) then
        some (e.1, best.1)
      else none

/-- The `keyword_project_map` built by a `learn_from_history()` call on a
freshly constructed assigner (whose maps start empty): the loop
`for keyword, project_durations in keyword_projects.items(): ...` assigns
`keyword_project_map[keyword] = best_project[0]` exactly for the qualifying
keywords, in table order — on the fresh empty dict this is a `filterMap`
of the per-keyword entry function over the table. -/
def keywordProjectMap (acts : List LAct) : List (String × Int) :=
  (keywordTable acts).filterMap kwEntry

/-- Model of `SmartProjectAssigner.get_confidence(activity, project_id)` over given
learned maps: `+0.6` on an exact app-map agreement, `+0.4 ×
matching/total` over the extracted title keywords when any exist, capped at
1.0.  Scores are modelled over ℚ (the source uses floats; all values are
small dyadic-free rationals where the comparison and cap agree). -/
def get_confidence (appMap kwMap : List (String × Int))
    (app title : String) (pid : Int) : ℚ :=
  let conf1 : ℚ :=
    match lookupA appMap app with
    | some p => if p == pid then 0 + 3/5 else 0
    | none => 0
  let kws := extractKeywords title
  let matching := kws.countP (fun kw => lookupA kwMap kw == some pid)
  let conf2 : ℚ :=
    if kws = [] then conf1
    else conf1 + 2/5 * ((matching : ℚ) / (kws.length : ℚ))
  min conf2 1

theorem maxBySnd_spec :
    ∀ (l : List (Int × Int)) (x : Int × Int),
      (l.foldl (fun best y => if best.2 < y.2 then y else best) x) ∈ x :: l ∧
        ∀ y ∈ x :: l,
          y.2 ≤ (l.foldl (fun best y => if best.2 < y.2 then y else best) x).2 := by
  intro l
  induction l with
  | nil =>
      intro x
      refine ⟨List.mem_singleton_self x, ?_⟩
      intro y hy
      rw [List.mem_singleton] at hy
      subst hy
      exact le_refl _
  | cons z l ih =>
      intro x
      rw [List.foldl_cons]
      obtain ⟨hmem, hle⟩ := ih (if x.2 < z.2 then z else x)
      constructor
      · rcases List.mem_cons.mp hmem with h | h
        · rw [h]
          by_cases hxz : x.2 < z.2
          · rw [if_pos hxz]
            exact List.mem_cons_of_mem x (List.mem_cons_self z l)
          · rw [if_neg hxz]
            exact List.mem_cons_self x (z :: l)
        · exact List.mem_cons_of_mem x (List.mem_cons_of_mem z h)
      · intro y hy
        rcases List.mem_cons.mp hy with h | h
        · subst h
          refine le_trans ?_ (hle _ (List.mem_cons_self _ l))
          by_cases hxz : y.2 < z.2
          · rw [if_pos hxz]
            omega
          · rw [if_neg hxz]
        · rcases List.mem_cons.mp h with h | h
          · subst h
            refine le_trans ?_ (hle _ (List.mem_cons_self _ l))
            by_cases hxz : x.2 < y.2
            · rw [if_pos hxz]
            · rw [if_neg hxz]
              omega
          · exact hle y (List.mem_cons_of_mem _ h)

theorem maxBySnd_mem_le {tbl : List (Int × Int)} {m : Int × Int}
    (h : maxBySnd tbl = some m) : m ∈ tbl ∧ ∀ y ∈ tbl, y.2 ≤ m.2 := by
  cases tbl with
  | nil => exact Option.noConfusion h
  | cons x l =>
      rw [maxBySnd, Option.some.injEq] at h
      subst h
      exact maxBySnd_spec l x

/-- The positivity invariant of the keyword table: every per-keyword table
is non-empty with positive accumulated durations. -/
def KwTblInv (t : List (String × List (Int × Int))) : Prop :=
  ∀ p ∈ t, p.2 ≠ [] ∧ ∀ e ∈ p.2, 0 < e.2

theorem addDur_ne_nil (pid d : Int) (tbl : List (Int × Int)) :
    addDur pid d tbl ≠ [] := by
  cases tbl with
  | nil => exact List.cons_ne_nil _ _
  | cons x rest =>
      unfold addDur
      by_cases h : (x.1 == pid) = true
      · rw [if_pos h]
        exact List.cons_ne_nil _ _
      · rw [if_neg h]
        exact List.cons_ne_nil _ _

theorem addDur_pos {pid d : Int} (hd : 0 < d) :
    ∀ {tbl : List (Int × Int)}, (∀ e ∈ tbl, 0 < e.2) →
      ∀ e ∈ addDur pid d tbl, 0 < e.2 := by
  intro tbl
  induction tbl with
  | nil =>
      intro _ e he
      rw [addDur, List.mem_singleton] at he
      subst he
      exact hd
  | cons x rest ih =>
      intro h e he
      unfold addDur at he
      by_cases hx : (x.1 == pid) = true
      · rw [if_pos hx] at he
        rcases List.mem_cons.mp he with he | he
        · subst he
          have := h x (List.mem_cons_self x rest)
          dsimp only
          omega
        · exact h e (List.mem_cons_of_mem x he)
      · rw [if_neg hx] at he
        rcases List.mem_cons.mp he with he | he
        · subst he
          exact h _ (List.mem_cons_self _ rest)
        · exact ih (fun y hy => h y (List.mem_cons_of_mem x hy)) e he

theorem addKw_inv {kw : String} {pid d : Int} (hd : 0 < d) :
    ∀ {t : List (String × List (Int × Int))}, KwTblInv t →
      KwTblInv (addKw kw pid d t) := by
  intro t
  induction t with
  | nil =>
      intro _ p hp
      rw [addKw, List.mem_singleton] at hp
      subst hp
      refine ⟨List.cons_ne_nil _ _, ?_⟩
      intro e he
      rw [List.mem_singleton] at he
      subst he
      exact hd
  | cons q rest ih =>
      intro h p hp
      unfold addKw at hp
      by_cases hq : (q.1 == kw) = true
      · rw [if_pos hq] at hp
        rcases List.mem_cons.mp hp with hp | hp
        · subst hp
          obtain ⟨h1, h2⟩ := h q (List.mem_cons_self q rest)
          exact ⟨addDur_ne_nil pid d q.2, addDur_pos hd h2⟩
        · exact h p (List.mem_cons_of_mem q hp)
      · rw [if_neg hq] at hp
        rcases List.mem_cons.mp hp with hp | hp
        · subst hp
          exact h _ (List.mem_cons_self _ rest)
        · exact ih (fun y hy => h y (List.mem_cons_of_mem q hy)) p hp

theorem foldl_addKw_inv {pid d : Int} (hd : 0 < d) :
    ∀ (kws : List String) {t : List (String × List (Int × Int))},
      KwTblInv t →
      KwTblInv (kws.foldl (fun t kw => addKw kw pid d t) t) := by
  intro kws
  induction kws with
  | nil =>
      intro t h
      exact h
  | cons kw kws ih =>
      intro t h
      rw [List.foldl_cons]
      exact ih (addKw_inv hd h)

theorem keywordTable_inv {acts : List LAct}
    (hpos : ∀ a ∈ acts, truthy a.project_id = true → 0 < a.duration) :
    KwTblInv (keywordTable acts) := by
  unfold keywordTable
  have hfp : ∀ a ∈ acts.filter (fun a => truthy a.project_id), 0 < a.duration := by
    intro a ha
    obtain ⟨hmem, htr⟩ := List.mem_filter.mp ha
    exact hpos a hmem htr
  revert hfp
  generalize acts.filter (fun a => truthy a.project_id) = l
  intro hfp
  have hgen : ∀ (l : List LAct), (∀ a ∈ l, 0 < a.duration) →
      ∀ {t : List (String × List (Int × Int))}, KwTblInv t →
      KwTblInv (l.foldl
        (fun t a =>
          (extractKeywords a.window_title).foldl
            (fun t kw => addKw kw (a.project_id.getD 0) a.duration t) t) t) := by
    intro l
    induction l with
    | nil =>
        intro _ t h
        exact h
    | cons a l ih =>
        intro hl t h
        rw [List.foldl_cons]
        refine ih (fun x hx => hl x (List.mem_cons_of_mem a hx))
          (foldl_addKw_inv (hl a (List.mem_cons_self a l)) _ h)
  exact hgen l hfp (fun p hp => absurd hp (List.not_mem_nil p))

theorem totalDur_pos :
    ∀ {tbl : List (Int × Int)}, tbl ≠ [] → (∀ e ∈ tbl, 0 < e.2) →
      0 < totalDur tbl := by
  intro tbl
  induction tbl with
  | nil =>
      intro h _
      exact absurd rfl h
  | cons x rest ih =>
      intro _ h
      unfold totalDur
      rw [List.map_cons, List.sum_cons]
      have hx := h x (List.mem_cons_self x rest)
      cases rest with
      | nil =>
          rw [List.map_nil, List.sum_nil]
          omega
      | cons y rest' =>
          have := ih (List.cons_ne_nil y rest')
            (fun e he => h e (List.mem_cons_of_mem x he))
          unfold totalDur at this
          omega

theorem ratio_gt_threshold {b t : Int} (ht : 0 < t) :
    ((3 : ℚ)/5 < (b : ℚ)/(t : ℚ)) ↔ 3 * t < 5 * b := by
  rw [div_lt_div_iff₀ (by norm_num) (by exact_mod_cast ht)]
  constructor
  · intro h
    have h' : ((3 * t : Int) : ℚ) < ((5 * b : Int) : ℚ) := by
      push_cast
      linarith
    exact_mod_cast h'
  · intro h
    have h' : ((3 * t : Int) : ℚ) < ((5 * b : Int) : ℚ) := by
      exact_mod_cast h
    push_cast at h'
    linarith

theorem mem_keywordProjectMap_elim {acts : List LAct} {kw : String} {v : Int}
    (hinv : KwTblInv (keywordTable acts))
    (h : (kw, v) ∈ keywordProjectMap acts) :
    ∃ tbl, (kw, tbl) ∈ keywordTable acts ∧
      ∃ e ∈ tbl, e.1 = v ∧ (∀ e' ∈ tbl, e'.2 ≤ e.2) ∧
        3 * totalDur tbl < 5 * e.2 := by
  unfold keywordProjectMap at h
  rw [List.mem_filterMap] at h
  obtain ⟨p, hp, hent⟩ := h
  obtain ⟨hne, hposall⟩ := hinv p hp
  unfold kwEntry at hent
  cases hm : maxBySnd p.2 with
  | none =>
      rw [hm] at hent
      exact Option.noConfusion hent
  | some best =>
      rw [hm] at hent
      dsimp only at hent
      by_cases hc : (3 : ℚ)/5 < (best.2 : ℚ)/(totalDur p.2 : ℚ)
      · rw [if_pos hc, Option.some.injEq, Prod.mk.injEq] at hent
        obtain ⟨hk, hv⟩ := hent
        obtain ⟨hbmem, hbub⟩ := maxBySnd_mem_le hm
        have htot : 0 < totalDur p.2 := totalDur_pos hne hposall
        refine ⟨p.2, ?_, best, hbmem, hv, hbub, ?_⟩
        · have hpe : p = (kw, p.2) := by
            rw [← hk]
          rw [← hpe]
          exact hp
        · exact (ratio_gt_threshold htot).mp hc
      · rw [if_neg hc] at hent
        exact Option.noConfusion hent

theorem mem_keywordProjectMap_intro {acts : List LAct} {kw : String}
    (hinv : KwTblInv (keywordTable acts)) {tbl : List (Int × Int)}
    (htbl : (kw, tbl) ∈ keywordTable acts) {e : Int × Int} (he : e ∈ tbl)
    (hub : ∀ e' ∈ tbl, e'.2 ≤ e.2) (hgt : 3 * totalDur tbl < 5 * e.2) :
    ∃ v, (kw, v) ∈ keywordProjectMap acts := by
  obtain ⟨hne, hposall⟩ := hinv (kw, tbl) htbl
  have htot : 0 < totalDur tbl := totalDur_pos hne hposall
  cases hm : maxBySnd tbl with
  | none =>
      cases tbl with
      | nil => exact absurd rfl hne
      | cons x l => exact Option.noConfusion hm
  | some best =>
      obtain ⟨hbmem, hbub⟩ := maxBySnd_mem_le hm
      have hgt' : 3 * totalDur tbl < 5 * best.2 := by
        have := hub best hbmem
        have := hbub e he
        omega
      refine ⟨best.1, ?_⟩
      unfold keywordProjectMap
      rw [List.mem_filterMap]
      refine ⟨(kw, tbl), htbl, ?_⟩
      unfold kwEntry
      rw [hm]
      dsimp only
      rw [if_pos ((ratio_gt_threshold htot).mpr hgt')]

/-- C7: after a `learn_from_history()` on a fresh assigner whose assigned
activities all have positive durations, `keyword_project_map` contains a
keyword iff, in the per-keyword duration table, some project's accumulated
duration is maximal and strictly exceeds 60% of the keyword's total
(`best/total > 0.6`, i.e. `3·total < 5·best`); and any project the keyword
maps to is such a maximal, above-threshold project.  In particular a 70/30
duration split maps the keyword to the majority project and a 55/45 split
maps it to no project. -/
theorem keywordProjectMap_threshold (acts : List LAct) (kw : String)
    (hpos : ∀ a ∈ acts, truthy a.project_id = true → 0 < a.duration) :
    ((∃ v, (kw, v) ∈ keywordProjectMap acts) ↔
      (∃ tbl, (kw, tbl) ∈ keywordTable acts ∧
        ∃ e ∈ tbl, (∀ e' ∈ tbl, e'.2 ≤ e.2) ∧
          3 * totalDur tbl < 5 * e.2)) ∧
    (∀ v, (kw, v) ∈ keywordProjectMap acts →
      ∃ tbl, (kw, tbl) ∈ keywordTable acts ∧
        ∃ e ∈ tbl, e.1 = v ∧ (∀ e' ∈ tbl, e'.2 ≤ e.2) ∧
          3 * totalDur tbl < 5 * e.2) := by
  have hinv := keywordTable_inv hpos
  constructor
  · constructor
    · rintro ⟨v, hv⟩
      obtain ⟨tbl, htbl, e, he, -, hub, hgt⟩ :=
        mem_keywordProjectMap_elim hinv hv
      exact ⟨tbl, htbl, e, he, hub, hgt⟩
    · rintro ⟨tbl, htbl, e, he, hub, hgt⟩
      exact mem_keywordProjectMap_intro hinv htbl he hub hgt
  · intro v hv
    exact mem_keywordProjectMap_elim hinv hv

/-- C7 witness: for "invoice" split 70/30 between projects 1 and 2, the
learned map contains the keyword (and the table entry meets the strict 60%
threshold at project 1). -/
theorem keywordProjectMap_threshold_witness :
    ∃ v, ("invoice", v) ∈ keywordProjectMap
      [⟨"app", "Invoice Work", some 1, 70⟩,
       ⟨"app", "invoice stuff", some 2, 30⟩] :=
  (keywordProjectMap_threshold
      [⟨"app", "Invoice Work", some 1, 70⟩,
       ⟨"app", "invoice stuff", some 2, 30⟩] "invoice"
      (by decide)).1.mpr
    ⟨[(1, 70), (2, 30)], by decide, (1, 70), by decide, by decide, by decide⟩

/-- C8: `get_confidence` returns exactly `min 1 (a + k)` where `a` is `0.6`
(here `3/5`) when the app map sends the activity's app to `project_id` and
`0` otherwise, and `k` is `0.4 × matching/total` over the extracted title
keywords (`0` when no keyword is extracted); the result always lies in
`[0, 1]`. -/
theorem get_confidence_formula (appMap kwMap : List (String × Int))
    (app title : String) (pid : Int) :
    get_confidence appMap kwMap app title pid =
      min 1
        ((if lookupA appMap app = some pid then (3 : ℚ)/5 else 0) +
         (if extractKeywords title = [] then 0
          else (2 : ℚ)/5 *
            (((extractKeywords title).countP
                (fun kw => lookupA kwMap kw == some pid) : ℚ) /
              ((extractKeywords title).length : ℚ)))) ∧
    0 ≤ get_confidence appMap kwMap app title pid ∧
    get_confidence appMap kwMap app title pid ≤ 1 := by
  have hK : (0:ℚ) ≤ (if extractKeywords title = [] then 0
      else (2 : ℚ)/5 *
        (((extractKeywords title).countP
            (fun kw => lookupA kwMap kw == some pid) : ℚ) /
          ((extractKeywords title).length : ℚ))) := by
    by_cases hk : extractKeywords title = []
    · rw [if_pos hk]
    · rw [if_neg hk]
      positivity
  have hA : (0:ℚ) ≤ (if lookupA appMap app = some pid then (3 : ℚ)/5 else 0) := by
    by_cases hl : lookupA appMap app = some pid
    · rw [if_pos hl]
      norm_num
    · rw [if_neg hl]
  have hmain : get_confidence appMap kwMap app title pid =
      min 1
        ((if lookupA appMap app = some pid then (3 : ℚ)/5 else 0) +
         (if extractKeywords title = [] then 0
          else (2 : ℚ)/5 *
            (((extractKeywords title).countP
                (fun kw => lookupA kwMap kw == some pid) : ℚ) /
              ((extractKeywords title).length : ℚ)))) := by
    simp only [get_confidence]
    rw [min_comm]
    congr 1
    cases hl : lookupA appMap app with
    | none =>
        by_cases hk : extractKeywords title = []
        · simp [hl, hk]
        · simp [hl, hk]
    | some p =>
        by_cases hp : p = pid
        · subst hp
          by_cases hk : extractKeywords title = []
          · simp [hl, hk]
          · simp [hl, hk]
        · have hbeq : (p == pid) = false := by
            rw [Bool.eq_false_iff, Ne, beq_iff_eq]
            exact hp
          by_cases hk : extractKeywords title = []
          · simp [hl, hk, hbeq, hp]
          · simp [hl, hk, hbeq, hp]
  refine ⟨hmain, ?_, ?_⟩
  · rw [hmain]
    refine le_min (by norm_num) ?_
    exact add_nonneg hA hK
  · rw [hmain]
    exact min_le_left _ _

end Timetracker
